import Mathlib

/-!
Verification of the streaming-sketch notebooks: Flajolet-Martin cardinality
estimators (`FlajoletMartinSimple`, `FlajoletMartinMultiple`) and a Bloom
filter (`BloomFilter`).

The Python classes are shallowly embedded: class instances become structures,
methods become functions on those structures, and the external hash libraries
(`hashlib.sha256`, `mmh3.hash64`, `mmh3.hash128`) are modelled as arbitrary
deterministic oracle parameters, since the sketches use nothing about them
beyond determinism.  Python's arbitrary-precision integers become `Nat`/`Int`
and its float arithmetic in `estimate_cardinality` (sums, divisions, the
constant `phi = 0.77351`) is modelled exactly over `ℚ`.
-/

namespace StreamAnalysis

/-- Source: `phi = 0.77351` (module-level constant in count_distinct.ipynb),
modelled as the exact rational 77351/100000.  `Rat.divInt` is used so the
constant reduces in the kernel. -/
def phi : ℚ := Rat.divInt 77351 100000

/-- Python `int(q)` on a float value: truncation toward zero. -/
def pyInt (q : ℚ) : ℤ := if 0 ≤ q then ⌊q⌋ else -⌊-q⌋

/-! ### Binary strings and `_tail_length`

Source (both FM classes, identical code):
```
binary_hash = bin(hash_value)[2:]
return len(binary_hash) - len(binary_hash.rstrip('0'))
```
A binary digit string is modelled as a `List Bool`, most significant digit
first, exactly the characters of `bin(n)[2:]`.  The recursion is fuelled (the
number itself is enough fuel) so that terms reduce in the kernel. -/

/-- Binary digits of `n`, most significant first; empty for `n = 0`.
First argument is fuel, always called with fuel `≥ n`. -/
def binDigitsAux : ℕ → ℕ → List Bool
  | 0, _ => []
  | fuel + 1, n => if n = 0 then [] else binDigitsAux fuel (n / 2) ++ [n % 2 == 1]

/-- Binary digits of `n`, most significant first (`[]` for `n = 0`). -/
def binDigits (n : ℕ) : List Bool := binDigitsAux n n

/-- Python `bin(n)[2:]`: the digit string of `n`, which is `"0"` for `n = 0`. -/
def pyBin (n : ℕ) : List Bool := if n = 0 then [false] else binDigits n

/-- Python `.rstrip('0')`: drop trailing zero digits. -/
def rstripZeros (l : List Bool) : List Bool :=
  (l.reverse.dropWhile (fun b => b == false)).reverse

/-- Source: `_tail_length(hash_value)` of both `FlajoletMartinSimple` and
`FlajoletMartinMultiple` (identical code in each class):
`len(binary_hash) - len(binary_hash.rstrip('0'))`. -/
def tail_length (n : ℕ) : ℕ := (pyBin n).length - (rstripZeros (pyBin n)).length

/-- Count of trailing `false` digits of a digit string. -/
def trailingCount (l : List Bool) : ℕ :=
  (l.reverse.takeWhile (fun b => b == false)).length

/-! ### FlajoletMartinSimple

Source (count_distinct.ipynb).  `_hash` calls `hashlib.sha256`; the hash
oracle is passed as a parameter `hf : α → ℕ` (an element to its SHA-256
digest read as an integer). -/

structure FlajoletMartinSimple where
  max_tail_length : ℕ
deriving DecidableEq

namespace FlajoletMartinSimple

/-- Source: `__init__`: `self.max_tail_length = 0`. -/
def init : FlajoletMartinSimple := ⟨0⟩

/-- Source: `process(value)`: hash, take the tail length, update the max. -/
def process (hf : α → ℕ) (value : α) (s : FlajoletMartinSimple) :
    FlajoletMartinSimple :=
  ⟨max s.max_tail_length (tail_length (hf value))⟩

/-- Feeding a stream to `process` one element at a time. -/
def processList (hf : α → ℕ) (l : List α) (s : FlajoletMartinSimple) :
    FlajoletMartinSimple :=
  l.foldl (fun t v => process hf v t) s

/-- Source: `estimate_cardinality`: `return 2 ** self.max_tail_length`. -/
def estimate_cardinality (s : FlajoletMartinSimple) : ℕ :=
  2 ^ s.max_tail_length

end FlajoletMartinSimple

/-- Source (driver cell): `cardinality = int(cardinality / phi)` — the bias
correction applied by the caller to the raw estimate. -/
def corrected_cardinality (cardinality : ℕ) : ℤ :=
  pyInt ((cardinality : ℚ) / phi)

/-! ### FlajoletMartinMultiple

Source (count_distinct.ipynb).  `_hash` calls `mmh3.hash128(value, seed)`;
the oracle is a parameter `hf : α → ℕ → ℕ`.  The seeds are drawn with
`random.randint` in `__init__`; they are passed to `init` explicitly.  The
`max_tail_length` matrix is a list of `num_groups` rows of `hashes_per_group`
cells; `process` writes exactly the cells `(group, i)` for `group` in
`range(num_groups)` and `i` in `range(hashes_per_group)`, which are all the
cells of a matrix built by `__init__`. -/

@[ext]
structure FlajoletMartinMultiple where
  num_groups : ℕ
  hashes_per_group : ℕ
  num_hashes : ℕ
  max_tail_length : List (List ℕ)
  seeds : List ℕ
  phi : ℚ
deriving DecidableEq

namespace FlajoletMartinMultiple

/-- Source: `__init__(num_groups, hashes_per_group)`: store both counts,
`num_hashes = num_groups * hashes_per_group`, a zero matrix
`[[0] * hashes_per_group for _ in range(num_groups)]`, the drawn seeds and
the module constant `phi`.  No validation of the parameters is performed. -/
def init (num_groups hashes_per_group : ℕ) (seeds : List ℕ) :
    FlajoletMartinMultiple where
  num_groups := num_groups
  hashes_per_group := hashes_per_group
  num_hashes := num_groups * hashes_per_group
  max_tail_length := List.replicate num_groups (List.replicate hashes_per_group 0)
  seeds := seeds
  phi := StreamAnalysis.phi

/-- Cell `(group, i)` of the matrix (0 when out of range — Python instances
always have the exact `num_groups × hashes_per_group` shape). -/
def cell (s : FlajoletMartinMultiple) (group i : ℕ) : ℕ :=
  (s.max_tail_length.getD group []).getD i 0

/-- Source: `process(value)`: for every `group` in `range(num_groups)` and
`i` in `range(hashes_per_group)`, hash with seed `seeds[group *
hashes_per_group + i]` and update cell `(group, i)` with the max of its old
value and the tail length. -/
def process (hf : α → ℕ → ℕ) (value : α) (s : FlajoletMartinMultiple) :
    FlajoletMartinMultiple :=
  { s with
    max_tail_length :=
      (List.range s.num_groups).map (fun group =>
        (List.range s.hashes_per_group).map (fun i =>
          let index := group * s.hashes_per_group + i
          let hash_value := hf value (s.seeds.getD index 0)
          let trailing_zeros := tail_length hash_value
          max (s.cell group i) trailing_zeros)) }

/-- Feeding a stream to `process` one element at a time. -/
def processList (hf : α → ℕ → ℕ) (l : List α) (s : FlajoletMartinMultiple) :
    FlajoletMartinMultiple :=
  l.foldl (fun t v => process hf v t) s

/-- Source: the `group_medians` local of `estimate_cardinality`: for each
group, sort its corrected per-cell estimates `2 ** r / self.phi` ascending
(Python `sorted`) and take the element at index `len(sorted_array) // 2`. -/
def group_medians (s : FlajoletMartinMultiple) : List ℚ :=
  s.max_tail_length.map (fun group =>
    let sorted_array := List.insertionSort (· ≤ ·)
      (group.map (fun r => (2 : ℚ) ^ r / s.phi))
    sorted_array.getD (sorted_array.length / 2) 0)

/-- Source: `estimate_cardinality`: `int(sum(group_medians) /
len(group_medians))`. -/
def estimate_cardinality (s : FlajoletMartinMultiple) : ℤ :=
  pyInt ((group_medians s).sum / ((group_medians s).length : ℚ))

/-- Shape invariant of every instance: the matrix consists of exactly
`num_groups` rows of `hashes_per_group` cells each.  `__init__` establishes
it and `process` preserves it. -/
def wf (s : FlajoletMartinMultiple) : Prop :=
  s.max_tail_length.length = s.num_groups ∧
    ∀ row ∈ s.max_tail_length, row.length = s.hashes_per_group

instance (s : FlajoletMartinMultiple) : Decidable (wf s) := by
  unfold wf; infer_instance

/-- The estimate as the specification words it, for comparison with the
source translation `estimate_cardinality`: within each group `g`, correct
each cell to `2 ^ maxTail[g][i] / phi`, sort ascending, take the element at
index `hashesPerGroup / 2`, average the `numGroups` group medians and
truncate to an integer. -/
def estimateSpec (s : FlajoletMartinMultiple) : ℤ :=
  pyInt ((((List.range s.num_groups).map (fun g =>
    (List.insertionSort (· ≤ ·) ((List.range s.hashes_per_group).map
      (fun i => (2 : ℚ) ^ s.cell g i / StreamAnalysis.phi))).getD
      (s.hashes_per_group / 2) 0)).sum) / (s.num_groups : ℚ))

end FlajoletMartinMultiple

/-! ### BloomFilter

Source (bloom filter notebook).  `_hashes` calls `mmh3.hash64(value, i)[0]`,
a signed 64-bit integer; the oracle is a parameter `hf : α → ℕ → ℤ`.  The
`bitarray` is modelled as a total function `ℕ → Bool` (bit `j` of the
array); only indices `< size` are ever written or read.  Python's `%` with a
positive modulus agrees with `Int.emod` (`%` on `ℤ`), and the resulting
non-negative index is read back as a `ℕ` via `toNat`. -/

structure BloomFilter where
  size : ℕ
  hash_count : ℕ
  bit_array : ℕ → Bool

namespace BloomFilter

/-- Source: `__init__(bitmap_size, hash_count)`: store both parameters and
set every bit of the fresh `bitarray(bitmap_size)` to 0.  The class performs
no validation of its own.  Sizes are modelled as `ℕ`: `bitarray(0)` succeeds
in Python, while a negative length would be rejected by the `bitarray`
library itself (a generic `ValueError`, outside this model's domain). -/
def init (bitmap_size hash_count : ℕ) : BloomFilter where
  size := bitmap_size
  hash_count := hash_count
  bit_array := fun _ => false

/-- Source: `_hashes(value)`: `[mmh3.hash64(value, i)[0] % self.size for i
in range(self.hash_count)]`. -/
def hashesOf (hf : α → ℕ → ℤ) (value : α) (s : BloomFilter) : List ℕ :=
  (List.range s.hash_count).map (fun i => ((hf value i) % (s.size : ℤ)).toNat)

/-- Setting one bit of the array to 1. -/
def setBit (ba : ℕ → Bool) (j : ℕ) : ℕ → Bool :=
  fun t => if t = j then true else ba t

/-- Source: `add(value)`: set the bit at every index `_hashes` returns. -/
def add (hf : α → ℕ → ℤ) (value : α) (s : BloomFilter) : BloomFilter :=
  { s with bit_array := (hashesOf hf value s).foldl setBit s.bit_array }

/-- Source: `query(value)`: true iff the bits at all indices `_hashes`
returns are 1. -/
def query (hf : α → ℕ → ℤ) (value : α) (s : BloomFilter) : Bool :=
  (hashesOf hf value s).all (fun j => s.bit_array j)

/-- Feeding a stream of insertions to `add` one element at a time. -/
def addList (hf : α → ℕ → ℤ) (l : List α) (s : BloomFilter) : BloomFilter :=
  l.foldl (fun t v => add hf v t) s

end BloomFilter

/-! ### Theorems: the binary-string tail length -/

theorem binDigitsAux_fuel (f₁ f₂ n : ℕ) (h₁ : n ≤ f₁) (h₂ : n ≤ f₂) :
    binDigitsAux f₁ n = binDigitsAux f₂ n := by
  induction f₁ generalizing f₂ n with
  | zero =>
    interval_cases n
    cases f₂ <;> simp [binDigitsAux]
  | succ f ih =>
    cases f₂ with
    | zero =>
      interval_cases n
      simp [binDigitsAux]
    | succ f' =>
      by_cases hn : n = 0
      · simp [binDigitsAux, hn]
      · have hd : n / 2 < n := Nat.div_lt_self (Nat.pos_of_ne_zero hn) (by omega)
        simp only [binDigitsAux, if_neg hn]
        rw [ih f' (n / 2) (by omega) (by omega)]

theorem binDigits_zero : binDigits 0 = [] := rfl

theorem binDigits_of_ne_zero {n : ℕ} (hn : n ≠ 0) :
    binDigits n = binDigits (n / 2) ++ [n % 2 == 1] := by
  obtain ⟨m, rfl⟩ : ∃ m, n = m + 1 := ⟨n - 1, by omega⟩
  show binDigitsAux (m + 1) (m + 1) = _
  simp only [binDigitsAux, if_neg hn]
  rw [binDigitsAux_fuel m ((m + 1) / 2) ((m + 1) / 2) (by omega) (le_refl _)]
  rfl

theorem tail_length_eq_trailingCount (n : ℕ) :
    tail_length n = trailingCount (pyBin n) := by
  unfold tail_length trailingCount rstripZeros
  have hsplit :
      ((pyBin n).reverse.takeWhile (fun b => b == false)).length +
        ((pyBin n).reverse.dropWhile (fun b => b == false)).length =
        (pyBin n).reverse.length := by
    conv_rhs => rw [← List.takeWhile_append_dropWhile
      (p := fun b => b == false) (l := (pyBin n).reverse)]
    rw [List.length_append]
  simp only [List.length_reverse] at hsplit ⊢
  omega

theorem trailingCount_append_false (l : List Bool) :
    trailingCount (l ++ [false]) = trailingCount l + 1 := by
  simp [trailingCount, List.takeWhile]

theorem trailingCount_append_true (l : List Bool) :
    trailingCount (l ++ [true]) = 0 := by
  simp [trailingCount, List.takeWhile]

theorem tail_length_zero : tail_length 0 = 1 := rfl

theorem tail_length_of_odd {n : ℕ} (h : n % 2 = 1) : tail_length n = 0 := by
  have hn : n ≠ 0 := by omega
  rw [tail_length_eq_trailingCount, pyBin, if_neg hn, binDigits_of_ne_zero hn, h]
  exact trailingCount_append_true _

theorem tail_length_of_even {n : ℕ} (hn : n ≠ 0) (h : n % 2 = 0) :
    tail_length n = tail_length (n / 2) + 1 := by
  have h2 : n / 2 ≠ 0 := by omega
  rw [tail_length_eq_trailingCount, pyBin, if_neg hn, binDigits_of_ne_zero hn, h,
    tail_length_eq_trailingCount, pyBin, if_neg h2]
  simpa using trailingCount_append_false (binDigits (n / 2))

/-- For positive `n`, `tail_length` is the exact count of trailing zero bits:
`2 ^ tail_length n` divides `n` and `2 ^ (tail_length n + 1)` does not. -/
theorem tail_length_spec_of_pos {n : ℕ} (hn : 0 < n) :
    2 ^ tail_length n ∣ n ∧ ¬ 2 ^ (tail_length n + 1) ∣ n := by
  induction n using Nat.strong_induction_on with
  | _ n ih =>
    rcases Nat.even_or_odd n with he | ho
    · have h0 : n % 2 = 0 := Nat.even_iff.mp he
      have hne : n ≠ 0 := by omega
      have hd : n / 2 < n := Nat.div_lt_self hn (by omega)
      have hdp : 0 < n / 2 := by omega
      obtain ⟨hdvd, hndvd⟩ := ih (n / 2) hd hdp
      rw [tail_length_of_even hne h0]
      set t := tail_length (n / 2) with ht
      obtain ⟨c, hc⟩ := hdvd
      have hn2 : n = 2 * (n / 2) := by omega
      refine ⟨⟨c, by rw [hn2, hc, pow_succ]; ring⟩, ?_⟩
      rintro ⟨d, hd2⟩
      apply hndvd
      refine ⟨d, ?_⟩
      have hkey : 2 * (n / 2) = 2 * (2 ^ (t + 1) * d) := by
        rw [← hn2, hd2, pow_succ, pow_succ]; ring
      omega
    · have h1 : n % 2 = 1 := Nat.odd_iff.mp ho
      rw [tail_length_of_odd h1]
      refine ⟨one_dvd n, ?_⟩
      intro hcon
      rw [pow_one] at hcon
      omega

namespace BloomFilter

theorem foldl_setBit_of_true {ba : ℕ → Bool} {j : ℕ} (l : List ℕ)
    (h : ba j = true) : (l.foldl setBit ba) j = true := by
  induction l generalizing ba with
  | nil => exact h
  | cons a l ih =>
    apply ih
    unfold setBit
    by_cases hj : j = a <;> simp [hj, h]

theorem foldl_setBit_of_mem {ba : ℕ → Bool} {j : ℕ} {l : List ℕ}
    (h : j ∈ l) : (l.foldl setBit ba) j = true := by
  induction l generalizing ba with
  | nil => cases h
  | cons a l ih =>
    rw [List.foldl_cons]
    rcases List.mem_cons.mp h with rfl | hmem
    · exact foldl_setBit_of_true l (by unfold setBit; exact if_pos rfl)
    · exact ih hmem

@[simp] theorem size_add (hf : α → ℕ → ℤ) (v : α) (s : BloomFilter) :
    (add hf v s).size = s.size := rfl

@[simp] theorem hash_count_add (hf : α → ℕ → ℤ) (v : α) (s : BloomFilter) :
    (add hf v s).hash_count = s.hash_count := rfl

/-- The probe indices depend only on `size` and `hash_count`, which `add`
never changes. -/
theorem hashesOf_add (hf : α → ℕ → ℤ) (v w : α) (s : BloomFilter) :
    hashesOf hf v (add hf w s) = hashesOf hf v s := rfl

theorem bit_le_add (hf : α → ℕ → ℤ) (v : α) (s : BloomFilter) (j : ℕ)
    (h : s.bit_array j = true) : (add hf v s).bit_array j = true :=
  foldl_setBit_of_true _ h

theorem query_add_self (hf : α → ℕ → ℤ) (x : α) (s : BloomFilter) :
    query hf x (add hf x s) = true := by
  unfold query
  rw [List.all_eq_true]
  intro j hj
  rw [hashesOf_add] at hj
  exact foldl_setBit_of_mem hj

theorem query_le_add (hf : α → ℕ → ℤ) (x v : α) (s : BloomFilter)
    (h : query hf x s = true) : query hf x (add hf v s) = true := by
  unfold query at h ⊢
  rw [List.all_eq_true] at h ⊢
  intro j hj
  rw [hashesOf_add] at hj
  exact bit_le_add hf v s j (h j hj)

theorem query_le_addList (hf : α → ℕ → ℤ) (x : α) (l : List α)
    (s : BloomFilter) (h : query hf x s = true) :
    query hf x (addList hf l s) = true := by
  induction l generalizing s with
  | nil => exact h
  | cons a l ih => exact ih _ (query_le_add hf x a s h)

theorem hashesOf_length (hf : α → ℕ → ℤ) (v : α) (s : BloomFilter) :
    (hashesOf hf v s).length = s.hash_count := by
  simp [hashesOf]

theorem hashesOf_lt_size (hf : α → ℕ → ℤ) (v : α) (s : BloomFilter)
    (hpos : 0 < s.size) : ∀ idx ∈ hashesOf hf v s, idx < s.size := by
  intro idx hidx
  simp only [hashesOf, List.mem_map, List.mem_range] at hidx
  obtain ⟨i, -, rfl⟩ := hidx
  have h0 : (0 : ℤ) ≤ hf v i % (s.size : ℤ) :=
    Int.emod_nonneg _ (by exact_mod_cast hpos.ne')
  have h1 : hf v i % (s.size : ℤ) < (s.size : ℤ) :=
    Int.emod_lt_of_pos _ (by exact_mod_cast hpos)
  omega

end BloomFilter

/-! ### Lemmas about the Flajolet-Martin state transitions -/

namespace FlajoletMartinSimple

theorem processList_cons_simple (hf : α → ℕ) (v : α) (l : List α)
    (s : FlajoletMartinSimple) :
    processList hf (v :: l) s = processList hf l (process hf v s) := rfl

theorem process_comm_simple (hf : α → ℕ) (x y : α) (s : FlajoletMartinSimple) :
    process hf x (process hf y s) = process hf y (process hf x s) := by
  unfold process
  simp only [mk.injEq]
  omega

theorem process_idem_simple (hf : α → ℕ) (x : α) (s : FlajoletMartinSimple) :
    process hf x (process hf x s) = process hf x s := by
  unfold process
  simp only [mk.injEq]
  rw [max_assoc, max_self]

theorem processList_perm_simple (hf : α → ℕ) {l₁ l₂ : List α}
    (hp : l₁.Perm l₂) (s : FlajoletMartinSimple) :
    processList hf l₁ s = processList hf l₂ s := by
  induction hp generalizing s with
  | nil => rfl
  | cons x _ ih => exact ih _
  | swap x y l =>
    show processList hf l (process hf x (process hf y s)) =
      processList hf l (process hf y (process hf x s))
    rw [process_comm_simple]
  | trans _ _ ih₁ ih₂ => exact (ih₁ s).trans (ih₂ s)

theorem processList_dup_simple (hf : α → ℕ) {l : List α} {x : α} (hx : x ∈ l)
    (s : FlajoletMartinSimple) :
    processList hf (l ++ [x]) s = processList hf l s := by
  obtain ⟨a, b, rfl⟩ := List.append_of_mem hx
  have p₁ : (a ++ x :: b ++ [x]).Perm (x :: x :: (a ++ b)) := by
    refine (List.perm_append_singleton x _).trans ?_
    exact List.Perm.cons x List.perm_middle
  have p₂ : (x :: (a ++ b)).Perm (a ++ x :: b) := List.perm_middle.symm
  rw [processList_perm_simple hf p₁, processList_cons_simple, processList_cons_simple,
    process_idem_simple, ← processList_cons_simple, processList_perm_simple hf p₂]

end FlajoletMartinSimple

theorem getD_map_range {β : Type} (f : ℕ → β) (d : β) {n i : ℕ} (h : i < n) :
    ((List.range n).map f).getD i d = f i := by
  rw [List.getD_eq_getElem _ _ (by simpa using h)]
  simp

namespace FlajoletMartinMultiple

@[simp] theorem num_groups_process (hf : α → ℕ → ℕ) (v : α)
    (s : FlajoletMartinMultiple) : (process hf v s).num_groups = s.num_groups := rfl

@[simp] theorem hashes_per_group_process (hf : α → ℕ → ℕ) (v : α)
    (s : FlajoletMartinMultiple) :
    (process hf v s).hashes_per_group = s.hashes_per_group := rfl

@[simp] theorem seeds_process (hf : α → ℕ → ℕ) (v : α)
    (s : FlajoletMartinMultiple) : (process hf v s).seeds = s.seeds := rfl

@[simp] theorem phi_process (hf : α → ℕ → ℕ) (v : α)
    (s : FlajoletMartinMultiple) : (process hf v s).phi = s.phi := rfl

theorem cell_process (hf : α → ℕ → ℕ) (v : α) (s : FlajoletMartinMultiple)
    {g i : ℕ} (hg : g < s.num_groups) (hi : i < s.hashes_per_group) :
    cell (process hf v s) g i =
      max (cell s g i)
        (tail_length (hf v (s.seeds.getD (g * s.hashes_per_group + i) 0))) := by
  unfold cell process
  simp only
  rw [getD_map_range _ _ hg, getD_map_range _ _ hi]
  rfl

theorem cell_eq_zero_of_ge_groups {s : FlajoletMartinMultiple} {g : ℕ}
    (hwf : wf s) (hg : s.num_groups ≤ g) (i : ℕ) : cell s g i = 0 := by
  unfold cell
  rw [List.getD_eq_default s.max_tail_length [] (by rw [hwf.1]; exact hg)]
  rfl

theorem cell_eq_zero_of_ge_hashes {s : FlajoletMartinMultiple} {i : ℕ}
    (hwf : wf s) (hi : s.hashes_per_group ≤ i) (g : ℕ) : cell s g i = 0 := by
  unfold cell
  by_cases hg : g < s.max_tail_length.length
  · rw [List.getD_eq_getElem _ _ hg]
    exact List.getD_eq_default _ _ (by rw [hwf.2 _ (s.max_tail_length.getElem_mem hg)]; exact hi)
  · rw [List.getD_eq_default s.max_tail_length [] (by omega)]
    rfl

theorem wf_init (num_groups hashes_per_group : ℕ) (seeds : List ℕ) :
    wf (init num_groups hashes_per_group seeds) := by
  constructor
  · simp [init]
  · intro row hrow
    rw [init, List.eq_of_mem_replicate hrow]
    simp

theorem wf_process (hf : α → ℕ → ℕ) (v : α) (s : FlajoletMartinMultiple) :
    wf (process hf v s) := by
  constructor
  · simp [process]
  · intro row hrow
    simp only [process, List.mem_map] at hrow
    obtain ⟨g, -, rfl⟩ := hrow
    simp

theorem wf_processList (hf : α → ℕ → ℕ) (l : List α)
    (s : FlajoletMartinMultiple) (h : wf s) : wf (processList hf l s) := by
  induction l generalizing s with
  | nil => exact h
  | cons a l ih => exact ih _ (wf_process hf a s)

theorem mtl_process (hf : α → ℕ → ℕ) (v : α) (s : FlajoletMartinMultiple) :
    (process hf v s).max_tail_length =
      (List.range s.num_groups).map (fun g =>
        (List.range s.hashes_per_group).map (fun i =>
          max (cell s g i)
            (tail_length (hf v (s.seeds.getD (g * s.hashes_per_group + i) 0))))) :=
  rfl

theorem mtl_process_process (hf : α → ℕ → ℕ) (u w : α)
    (s : FlajoletMartinMultiple) :
    (process hf u (process hf w s)).max_tail_length =
      (List.range s.num_groups).map (fun g =>
        (List.range s.hashes_per_group).map (fun i =>
          max (max (cell s g i)
              (tail_length (hf w (s.seeds.getD (g * s.hashes_per_group + i) 0))))
            (tail_length (hf u (s.seeds.getD (g * s.hashes_per_group + i) 0))))) := by
  rw [mtl_process]
  simp only [num_groups_process, hashes_per_group_process, seeds_process]
  apply List.map_congr_left
  intro g hg
  rw [List.mem_range] at hg
  apply List.map_congr_left
  intro i hi
  rw [List.mem_range] at hi
  rw [cell_process hf w s hg hi]

theorem process_comm (hf : α → ℕ → ℕ) (x y : α) (s : FlajoletMartinMultiple) :
    process hf x (process hf y s) = process hf y (process hf x s) := by
  ext : 1
  · rfl
  · rfl
  · rfl
  · rw [mtl_process_process, mtl_process_process]
    apply List.map_congr_left
    intro g hg
    apply List.map_congr_left
    intro i hi
    omega
  · rfl
  · rfl

theorem process_idem (hf : α → ℕ → ℕ) (x : α) (s : FlajoletMartinMultiple) :
    process hf x (process hf x s) = process hf x s := by
  ext : 1
  · rfl
  · rfl
  · rfl
  · rw [mtl_process_process, mtl_process]
    apply List.map_congr_left
    intro g hg
    apply List.map_congr_left
    intro i hi
    omega
  · rfl
  · rfl

theorem processList_cons (hf : α → ℕ → ℕ) (v : α) (l : List α)
    (s : FlajoletMartinMultiple) :
    processList hf (v :: l) s = processList hf l (process hf v s) := rfl

theorem processList_perm (hf : α → ℕ → ℕ) {l₁ l₂ : List α}
    (hp : l₁.Perm l₂) (s : FlajoletMartinMultiple) :
    processList hf l₁ s = processList hf l₂ s := by
  induction hp generalizing s with
  | nil => rfl
  | cons x _ ih => exact ih _
  | swap x y l =>
    show processList hf l (process hf x (process hf y s)) =
      processList hf l (process hf y (process hf x s))
    rw [process_comm]
  | trans _ _ ih₁ ih₂ => exact (ih₁ s).trans (ih₂ s)

theorem processList_dup (hf : α → ℕ → ℕ) {l : List α} {x : α} (hx : x ∈ l)
    (s : FlajoletMartinMultiple) :
    processList hf (l ++ [x]) s = processList hf l s := by
  obtain ⟨a, b, rfl⟩ := List.append_of_mem hx
  have p₁ : (a ++ x :: b ++ [x]).Perm (x :: x :: (a ++ b)) := by
    refine (List.perm_append_singleton x _).trans ?_
    exact List.Perm.cons x List.perm_middle
  have p₂ : (x :: (a ++ b)).Perm (a ++ x :: b) := List.perm_middle.symm
  rw [processList_perm hf p₁, processList_cons, processList_cons,
    process_idem, ← processList_cons, processList_perm hf p₂]

/-- Under the shape invariant, the source's per-row median computation is the
index-wise computation the specification describes. -/
theorem group_medians_eq_spec (s : FlajoletMartinMultiple) (hwf : wf s)
    (hphi : s.phi = StreamAnalysis.phi) :
    group_medians s = (List.range s.num_groups).map (fun g =>
      (List.insertionSort (· ≤ ·) ((List.range s.hashes_per_group).map
        (fun i => (2 : ℚ) ^ s.cell g i / StreamAnalysis.phi))).getD
        (s.hashes_per_group / 2) 0) := by
  unfold group_medians
  rw [hphi]
  apply List.ext_getElem
  · simp [hwf.1]
  · intro g h₁ h₂
    simp only [List.getElem_map, List.getElem_range]
    have hg : g < s.max_tail_length.length := by simpa using h₁
    have hrow : s.max_tail_length[g].length = s.hashes_per_group :=
      hwf.2 _ (List.getElem_mem hg)
    have hmap : s.max_tail_length[g].map
        (fun r => (2 : ℚ) ^ r / StreamAnalysis.phi) =
        (List.range s.hashes_per_group).map
          (fun i => (2 : ℚ) ^ s.cell g i / StreamAnalysis.phi) := by
      apply List.ext_getElem
      · simp [hrow]
      · intro i hi₁ hi₂
        simp only [List.getElem_map, List.getElem_range]
        have hi : i < s.max_tail_length[g].length := by simpa using hi₁
        congr 2
        unfold cell
        rw [List.getD_eq_getElem _ _ hg, List.getD_eq_getElem _ _ hi]
    rw [hmap]
    congr 1
    rw [List.length_insertionSort, List.length_map, List.length_range]

/-- The source estimate and the specification formula agree on every
well-formed state.  (For `num_groups = 0` or `hashes_per_group = 0` the
Python code raises; those cases are excluded by hypothesis.) -/
theorem estimate_cardinality_eq_spec (s : FlajoletMartinMultiple)
    (hwf : wf s) (hG : 0 < s.num_groups) (hH : 0 < s.hashes_per_group)
    (hphi : s.phi = StreamAnalysis.phi) :
    estimate_cardinality s = estimateSpec s := by
  unfold estimate_cardinality estimateSpec
  rw [group_medians_eq_spec s hwf hphi, List.length_map, List.length_range]

/-- Every group median is non-negative (each corrected estimate
`2 ^ r / phi` is, and the out-of-range default is 0). -/
theorem group_medians_nonneg (s : FlajoletMartinMultiple) (hphi : 0 < s.phi) :
    ∀ q ∈ group_medians s, 0 ≤ q := by
  intro q hq
  unfold group_medians at hq
  rw [List.mem_map] at hq
  obtain ⟨row, -, rfl⟩ := hq
  simp only
  set l := List.insertionSort (· ≤ ·) (row.map (fun r => (2 : ℚ) ^ r / s.phi))
    with hl
  by_cases h : l.length / 2 < l.length
  · rw [List.getD_eq_getElem _ _ h]
    have hm : l[l.length / 2] ∈ l := List.getElem_mem h
    obtain ⟨r, -, hr⟩ :=
      List.mem_map.mp ((List.perm_insertionSort _ _).mem_iff.mp hm)
    rw [← hr]
    exact div_nonneg (by positivity) hphi.le
  · rw [List.getD_eq_default _ _ (by omega)]

theorem cell_le_process (hf : α → ℕ → ℕ) (v : α) (s : FlajoletMartinMultiple)
    (hwf : wf s) (g i : ℕ) : cell s g i ≤ cell (process hf v s) g i := by
  by_cases hg : g < s.num_groups
  · by_cases hi : i < s.hashes_per_group
    · rw [cell_process hf v s hg hi]
      exact le_max_left _ _
    · rw [cell_eq_zero_of_ge_hashes hwf (by omega) g]
      exact Nat.zero_le _
  · rw [cell_eq_zero_of_ge_groups hwf (by omega) i]
    exact Nat.zero_le _

end FlajoletMartinMultiple

namespace FlajoletMartinSimple

theorem processList_foldl (hf : α → ℕ) (l : List α) (m : ℕ) :
    processList hf l ⟨m⟩ =
      ⟨l.foldl (fun t v => max t (tail_length (hf v))) m⟩ := by
  induction l generalizing m with
  | nil => rfl
  | cons v l ih => exact ih (max m (tail_length (hf v)))

end FlajoletMartinSimple

namespace FlajoletMartinMultiple

theorem process_one_one (hf : α → ℕ → ℕ) (v : α) (seed m : ℕ) :
    process hf v ⟨1, 1, 1, [[m]], [seed], StreamAnalysis.phi⟩ =
      ⟨1, 1, 1, [[max m (tail_length (hf v seed))]], [seed],
        StreamAnalysis.phi⟩ := rfl

theorem processList_one_one (hf : α → ℕ → ℕ) (l : List α) (seed m : ℕ) :
    processList hf l ⟨1, 1, 1, [[m]], [seed], StreamAnalysis.phi⟩ =
      ⟨1, 1, 1, [[l.foldl (fun t v => max t (tail_length (hf v seed))) m]],
        [seed], StreamAnalysis.phi⟩ := by
  induction l generalizing m with
  | nil => rfl
  | cons v l ih =>
    rw [processList_cons, process_one_one]
    exact ih (max m (tail_length (hf v seed)))

theorem estimate_single (a b c : ℕ) (seeds : List ℕ) (m : ℕ) (p : ℚ) :
    estimate_cardinality ⟨a, b, c, [[m]], seeds, p⟩ =
      pyInt ((2 : ℚ) ^ m / p) := by
  simp [estimate_cardinality, group_medians, List.insertionSort,
    List.orderedInsert]

end FlajoletMartinMultiple

theorem phi_pos : 0 < phi := by decide

theorem pyInt_of_nonneg {q : ℚ} (h : 0 ≤ q) : pyInt q = ⌊q⌋ := if_pos h

theorem le_listMean {l : List ℚ} {a : ℚ} (hne : l ≠ []) (h : ∀ q ∈ l, a ≤ q) :
    a ≤ l.sum / (l.length : ℚ) := by
  have hpos : (0 : ℚ) < (l.length : ℚ) := by
    exact_mod_cast List.length_pos.mpr hne
  rw [le_div_iff₀ hpos]
  calc a * (l.length : ℚ) = l.length • a := by rw [nsmul_eq_mul, mul_comm]
    _ ≤ l.sum := List.card_nsmul_le_sum l a h

theorem listMean_le {l : List ℚ} {b : ℚ} (hne : l ≠ []) (h : ∀ q ∈ l, q ≤ b) :
    l.sum / (l.length : ℚ) ≤ b := by
  have hpos : (0 : ℚ) < (l.length : ℚ) := by
    exact_mod_cast List.length_pos.mpr hne
  rw [div_le_iff₀ hpos]
  calc l.sum ≤ l.length • b := List.sum_le_card_nsmul l b h
    _ = b * (l.length : ℚ) := by rw [nsmul_eq_mul, mul_comm]

/-! ### Claim theorems -/

/-- C1: for every Bloom filter constructed with bitmap size `m > 0` and hash
count `k > 0` and every finite sequence of `add` calls, once an element has
been passed to `add`, every subsequent `query` of that same element returns
true — immediately after the insertion and after any number of further
insertions. -/
theorem claim_C1_no_false_negatives {α : Type} (hf : α → ℕ → ℤ) (m k : ℕ)
    (hm : 0 < m) (hk : 0 < k) (pre post : List α) (x : α) :
    BloomFilter.query hf x
      (BloomFilter.addList hf post
        (BloomFilter.add hf x
          (BloomFilter.addList hf pre (BloomFilter.init m k)))) = true :=
  BloomFilter.query_le_addList hf x post _ (BloomFilter.query_add_self hf x _)

/-- Witness for C1 at a concrete filter, stream and element. -/
theorem claim_C1_witness :
    0 < 5 ∧ 0 < 2 ∧
      BloomFilter.query (fun (v i : ℕ) => (v : ℤ) + (i : ℤ)) 9
        (BloomFilter.addList (fun (v i : ℕ) => (v : ℤ) + (i : ℤ)) [2, 3]
          (BloomFilter.add (fun (v i : ℕ) => (v : ℤ) + (i : ℤ)) 9
            (BloomFilter.addList (fun (v i : ℕ) => (v : ℤ) + (i : ℤ)) [1]
              (BloomFilter.init 5 2)))) = true :=
  ⟨by decide, by decide,
    claim_C1_no_false_negatives (fun (v i : ℕ) => (v : ℤ) + (i : ℤ)) 5 2
      (by decide) (by decide) [1] [2, 3] 9⟩

/-- C2: on every well-formed grouped state with positive dimensions,
`estimate_cardinality` returns the integer truncation of the arithmetic mean
over the `numGroups` groups of the group medians, each median being the
element at index `hashesPerGroup / 2` of the ascending sort of the corrected
per-cell values `2 ^ maxTail[g][i] / phi`. -/
theorem claim_C2_estimate_formula (s : FlajoletMartinMultiple)
    (hwf : FlajoletMartinMultiple.wf s) (hG : 0 < s.num_groups)
    (hH : 0 < s.hashes_per_group) (hphi : s.phi = phi) :
    FlajoletMartinMultiple.estimate_cardinality s =
      FlajoletMartinMultiple.estimateSpec s :=
  FlajoletMartinMultiple.estimate_cardinality_eq_spec s hwf hG hH hphi

/-- Witness for C2 at a concrete 2-group, 3-hash state. -/
theorem claim_C2_witness :
    FlajoletMartinMultiple.wf (FlajoletMartinMultiple.init 2 3 [0, 1, 2, 3, 4, 5]) ∧
    0 < (FlajoletMartinMultiple.init 2 3 [0, 1, 2, 3, 4, 5]).num_groups ∧
    0 < (FlajoletMartinMultiple.init 2 3 [0, 1, 2, 3, 4, 5]).hashes_per_group ∧
    (FlajoletMartinMultiple.init 2 3 [0, 1, 2, 3, 4, 5]).phi = phi ∧
    FlajoletMartinMultiple.estimate_cardinality
        (FlajoletMartinMultiple.init 2 3 [0, 1, 2, 3, 4, 5]) =
      FlajoletMartinMultiple.estimateSpec
        (FlajoletMartinMultiple.init 2 3 [0, 1, 2, 3, 4, 5]) :=
  ⟨by decide, by decide, by decide, rfl,
    claim_C2_estimate_formula _ (by decide) (by decide) (by decide) rfl⟩

/-- C3: monotonicity of all sketch state: `process` never decreases
FmSimple's `max_tail_length` nor any cell of a well-formed FmGrouped matrix,
and `add` never clears a Bloom filter bit. -/
theorem claim_C3_monotonicity :
    (∀ (α : Type) (hf : α → ℕ) (v : α) (s : FlajoletMartinSimple),
      s.max_tail_length ≤
        (FlajoletMartinSimple.process hf v s).max_tail_length) ∧
    (∀ (α : Type) (hf : α → ℕ → ℕ) (v : α) (s : FlajoletMartinMultiple),
      FlajoletMartinMultiple.wf s → ∀ g i,
        FlajoletMartinMultiple.cell s g i ≤
          FlajoletMartinMultiple.cell
            (FlajoletMartinMultiple.process hf v s) g i) ∧
    (∀ (α : Type) (hf : α → ℕ → ℤ) (v : α) (s : BloomFilter) (j : ℕ),
      s.bit_array j = true → (BloomFilter.add hf v s).bit_array j = true) :=
  ⟨fun _ hf v s => le_max_left _ _,
   fun _ hf v s hwf g i =>
     FlajoletMartinMultiple.cell_le_process hf v s hwf g i,
   fun _ hf v s j h => BloomFilter.bit_le_add hf v s j h⟩

/-- Witness for C3 at concrete sketches. -/
theorem claim_C3_witness :
    ((⟨3⟩ : FlajoletMartinSimple).max_tail_length ≤
      (FlajoletMartinSimple.process (fun n : ℕ => n) 5
        ⟨3⟩).max_tail_length) ∧
    (FlajoletMartinMultiple.wf
        (FlajoletMartinMultiple.init 2 3 [1, 2, 3, 4, 5, 6]) ∧
      ∀ g i,
        FlajoletMartinMultiple.cell
            (FlajoletMartinMultiple.init 2 3 [1, 2, 3, 4, 5, 6]) g i ≤
          FlajoletMartinMultiple.cell
            (FlajoletMartinMultiple.process (fun (n s : ℕ) => n + s) 4
              (FlajoletMartinMultiple.init 2 3 [1, 2, 3, 4, 5, 6])) g i) ∧
    ((⟨4, 1, fun _ => true⟩ : BloomFilter).bit_array 0 = true ∧
      (BloomFilter.add (fun (v i : ℕ) => (v : ℤ) * (i : ℤ)) 7
        ⟨4, 1, fun _ => true⟩).bit_array 0 = true) :=
  ⟨claim_C3_monotonicity.1 ℕ (fun n => n) 5 ⟨3⟩,
   ⟨by decide,
     claim_C3_monotonicity.2.1 ℕ (fun n s => n + s) 4 _ (by decide)⟩,
   ⟨rfl, claim_C3_monotonicity.2.2 ℕ (fun v i => (v : ℤ) * (i : ℤ)) 7 _ 0 rfl⟩⟩

/-- C4: order invariance — permuting the processed stream leaves both
sketches' states (hence their `estimate_cardinality` values) unchanged, and
processing a duplicate element again changes nothing. -/
theorem claim_C4_order_invariance :
    (∀ (α : Type) (hf : α → ℕ) (l₁ l₂ : List α) (s : FlajoletMartinSimple),
      l₁.Perm l₂ →
      FlajoletMartinSimple.processList hf l₁ s =
        FlajoletMartinSimple.processList hf l₂ s) ∧
    (∀ (α : Type) (hf : α → ℕ → ℕ) (l₁ l₂ : List α)
        (s : FlajoletMartinMultiple), l₁.Perm l₂ →
      FlajoletMartinMultiple.processList hf l₁ s =
        FlajoletMartinMultiple.processList hf l₂ s) ∧
    (∀ (α : Type) (hf : α → ℕ) (l₁ l₂ : List α) (s : FlajoletMartinSimple),
      l₁.Perm l₂ →
      FlajoletMartinSimple.estimate_cardinality
          (FlajoletMartinSimple.processList hf l₁ s) =
        FlajoletMartinSimple.estimate_cardinality
          (FlajoletMartinSimple.processList hf l₂ s)) ∧
    (∀ (α : Type) (hf : α → ℕ → ℕ) (l₁ l₂ : List α)
        (s : FlajoletMartinMultiple), l₁.Perm l₂ →
      FlajoletMartinMultiple.estimate_cardinality
          (FlajoletMartinMultiple.processList hf l₁ s) =
        FlajoletMartinMultiple.estimate_cardinality
          (FlajoletMartinMultiple.processList hf l₂ s)) ∧
    (∀ (α : Type) (hf : α → ℕ) (l : List α) (x : α)
        (s : FlajoletMartinSimple), x ∈ l →
      FlajoletMartinSimple.processList hf (l ++ [x]) s =
        FlajoletMartinSimple.processList hf l s) ∧
    (∀ (α : Type) (hf : α → ℕ → ℕ) (l : List α) (x : α)
        (s : FlajoletMartinMultiple), x ∈ l →
      FlajoletMartinMultiple.processList hf (l ++ [x]) s =
        FlajoletMartinMultiple.processList hf l s) :=
  ⟨fun _ hf l₁ l₂ s hp => FlajoletMartinSimple.processList_perm_simple hf hp s,
   fun _ hf l₁ l₂ s hp => FlajoletMartinMultiple.processList_perm hf hp s,
   fun _ hf l₁ l₂ s hp =>
     congrArg _ (FlajoletMartinSimple.processList_perm_simple hf hp s),
   fun _ hf l₁ l₂ s hp =>
     congrArg _ (FlajoletMartinMultiple.processList_perm hf hp s),
   fun _ hf l x s hx => FlajoletMartinSimple.processList_dup_simple hf hx s,
   fun _ hf l x s hx => FlajoletMartinMultiple.processList_dup hf hx s⟩

/-- Witness for C4 at concrete streams. -/
theorem claim_C4_witness :
    (([3, 5] : List ℕ).Perm [5, 3] ∧
      FlajoletMartinSimple.processList (fun n : ℕ => n) [3, 5] ⟨0⟩ =
        FlajoletMartinSimple.processList (fun n : ℕ => n) [5, 3] ⟨0⟩) ∧
    (FlajoletMartinMultiple.processList (fun (n s : ℕ) => n + s) [3, 5]
        (FlajoletMartinMultiple.init 1 2 [1, 2]) =
      FlajoletMartinMultiple.processList (fun (n s : ℕ) => n + s) [5, 3]
        (FlajoletMartinMultiple.init 1 2 [1, 2])) ∧
    (FlajoletMartinSimple.estimate_cardinality
        (FlajoletMartinSimple.processList (fun n : ℕ => n) [3, 5] ⟨0⟩) =
      FlajoletMartinSimple.estimate_cardinality
        (FlajoletMartinSimple.processList (fun n : ℕ => n) [5, 3] ⟨0⟩)) ∧
    (FlajoletMartinMultiple.estimate_cardinality
        (FlajoletMartinMultiple.processList (fun (n s : ℕ) => n + s) [3, 5]
          (FlajoletMartinMultiple.init 1 2 [1, 2])) =
      FlajoletMartinMultiple.estimate_cardinality
        (FlajoletMartinMultiple.processList (fun (n s : ℕ) => n + s) [5, 3]
          (FlajoletMartinMultiple.init 1 2 [1, 2]))) ∧
    ((3 : ℕ) ∈ [2, 3] ∧
      FlajoletMartinSimple.processList (fun n : ℕ => n) ([2, 3] ++ [3]) ⟨0⟩ =
        FlajoletMartinSimple.processList (fun n : ℕ => n) [2, 3] ⟨0⟩) ∧
    (FlajoletMartinMultiple.processList (fun (n s : ℕ) => n + s)
        ([2, 3] ++ [3]) (FlajoletMartinMultiple.init 1 2 [1, 2]) =
      FlajoletMartinMultiple.processList (fun (n s : ℕ) => n + s) [2, 3]
        (FlajoletMartinMultiple.init 1 2 [1, 2])) :=
  ⟨⟨by decide,
    claim_C4_order_invariance.1 ℕ (fun n => n) [3, 5] [5, 3] ⟨0⟩ (by decide)⟩,
   claim_C4_order_invariance.2.1 ℕ (fun n s => n + s) [3, 5] [5, 3] _
     (by decide),
   claim_C4_order_invariance.2.2.1 ℕ (fun n => n) [3, 5] [5, 3] ⟨0⟩
     (by decide),
   claim_C4_order_invariance.2.2.2.1 ℕ (fun n s => n + s) [3, 5] [5, 3] _
     (by decide),
   ⟨by decide,
    claim_C4_order_invariance.2.2.2.2.1 ℕ (fun n => n) [2, 3] 3 ⟨0⟩
      (by decide)⟩,
   claim_C4_order_invariance.2.2.2.2.2 ℕ (fun n s => n + s) [2, 3] 3 _
     (by decide)⟩

/-- C5 counterexample: constructors accept zero-valued — hence
non-positive — parameters without raising: `BloomFilter(0, 1)`,
`FlajoletMartinMultiple(0, 5)` and `FlajoletMartinMultiple(3, 0)` all
produce fully constructed instances that store the offending value
unchanged, refuting the claimed fail-fast invalid-configuration error. -/
theorem claim_C5_counterexample :
    (BloomFilter.init 0 1).size = 0 ∧
    (BloomFilter.init 0 1).hash_count = 1 ∧
    (FlajoletMartinMultiple.init 0 5 []).num_groups = 0 ∧
    (FlajoletMartinMultiple.init 0 5 []).max_tail_length = [] ∧
    (FlajoletMartinMultiple.init 3 0 []).hashes_per_group = 0 :=
  ⟨rfl, rfl, rfl, rfl, rfl⟩

/-- C5 amended: the constructors perform no validation of their own: every
natural-number parameter value, zero included, is stored unchanged (never
clamped), the bit array starts all-zero and the matrix has exactly the
requested shape; no invalid-configuration error exists at construction.
(In Python the sole construction-time failure is a negative `bitmap_size`,
rejected by the `bitarray` library's generic length check — not an
invalid-configuration check naming the parameter; that case lies outside
this `ℕ`-typed model.) -/
theorem claim_C5_construction_no_validation (m k g h : ℕ) (seeds : List ℕ) :
    (BloomFilter.init m k).size = m ∧
    (BloomFilter.init m k).hash_count = k ∧
    (BloomFilter.init m k).bit_array = (fun _ => false) ∧
    (FlajoletMartinMultiple.init g h seeds).num_groups = g ∧
    (FlajoletMartinMultiple.init g h seeds).hashes_per_group = h ∧
    (FlajoletMartinMultiple.init g h seeds).num_hashes = g * h ∧
    (FlajoletMartinMultiple.init g h seeds).max_tail_length =
      List.replicate g (List.replicate h 0) ∧
    (FlajoletMartinMultiple.init g h seeds).seeds = seeds :=
  ⟨rfl, rfl, rfl, rfl, rfl, rfl, rfl, rfl⟩

/-- Witness for C5's amended statement at the offending parameters. -/
theorem claim_C5_witness :
    (BloomFilter.init 0 1).size = 0 ∧
    (BloomFilter.init 0 1).hash_count = 1 ∧
    (BloomFilter.init 0 1).bit_array = (fun _ => false) ∧
    (FlajoletMartinMultiple.init 0 5 []).num_groups = 0 ∧
    (FlajoletMartinMultiple.init 0 5 []).hashes_per_group = 5 ∧
    (FlajoletMartinMultiple.init 0 5 []).num_hashes = 0 * 5 ∧
    (FlajoletMartinMultiple.init 0 5 []).max_tail_length =
      List.replicate 0 (List.replicate 5 0) ∧
    (FlajoletMartinMultiple.init 0 5 []).seeds = [] :=
  claim_C5_construction_no_validation 0 1 0 5 []

/-- C6 counterexample: `_tail_length(0)` returns 1 — `bin(0)` is the string
"0", whose single character is stripped — not the hash width W (256 for
SHA-256, 128 for `mmh3.hash128`). -/
theorem claim_C6_counterexample :
    tail_length 0 = 1 ∧ (1 : ℕ) ≠ 256 ∧ (1 : ℕ) ≠ 128 :=
  ⟨rfl, by decide, by decide⟩

/-- C6 amended: for every positive hash value below `2 ^ 256`,
`_tail_length` returns exactly the number of trailing zero bits (the
largest `t` with `2 ^ t` dividing the value), which lies in `[0, 256]`; for
the all-zero hash value it returns 1, not the clamped width. -/
theorem claim_C6_tail_length (h : ℕ) (hpos : 0 < h) (hW : h < 2 ^ 256) :
    (2 ^ tail_length h ∣ h ∧ ¬ 2 ^ (tail_length h + 1) ∣ h ∧
      tail_length h ≤ 256) ∧ tail_length 0 = 1 := by
  obtain ⟨hd, hnd⟩ := tail_length_spec_of_pos hpos
  refine ⟨⟨hd, hnd, ?_⟩, rfl⟩
  have hle : 2 ^ tail_length h ≤ h := Nat.le_of_dvd hpos hd
  have hlt : 2 ^ tail_length h < 2 ^ 256 := lt_of_le_of_lt hle hW
  have := (Nat.pow_lt_pow_iff_right (by omega : 1 < 2)).mp hlt
  omega

/-- Witness for C6 at the hash value 12 (binary 1100, two trailing zeros). -/
theorem claim_C6_witness :
    0 < 12 ∧ 12 < 2 ^ 256 ∧
      ((2 ^ tail_length 12 ∣ 12 ∧ ¬ 2 ^ (tail_length 12 + 1) ∣ 12 ∧
        tail_length 12 ≤ 256) ∧ tail_length 0 = 1) :=
  ⟨by decide, by decide, claim_C6_tail_length 12 (by decide) (by decide)⟩

/-- C7 amended: `estimate_cardinality` takes no flag and always returns the
raw power of two `2 ^ max_tail_length`; the corrected form is produced
outside the class by the driver as `int(raw / phi)`, which equals
`⌊2 ^ maxTail / phi⌋` — the truncation of the corrected value, not
`2 ^ maxTail / phi` itself. -/
theorem claim_C7_estimate_forms (s : FlajoletMartinSimple) :
    FlajoletMartinSimple.estimate_cardinality s = 2 ^ s.max_tail_length ∧
    corrected_cardinality (FlajoletMartinSimple.estimate_cardinality s) =
      ⌊((2 : ℚ) ^ s.max_tail_length) / phi⌋ := by
  refine ⟨rfl, ?_⟩
  unfold corrected_cardinality FlajoletMartinSimple.estimate_cardinality
  rw [pyInt_of_nonneg (div_nonneg (by positivity) phi_pos.le)]
  congr 1
  push_cast
  ring

/-- Witness for C7's amended statement at `max_tail_length = 2`. -/
theorem claim_C7_witness :
    FlajoletMartinSimple.estimate_cardinality ⟨2⟩ =
        2 ^ (⟨2⟩ : FlajoletMartinSimple).max_tail_length ∧
    corrected_cardinality (FlajoletMartinSimple.estimate_cardinality ⟨2⟩) =
      ⌊((2 : ℚ) ^ (⟨2⟩ : FlajoletMartinSimple).max_tail_length) / phi⌋ :=
  claim_C7_estimate_forms ⟨2⟩

/-- C7 counterexample: at `max_tail_length = 0` the repository's corrected
estimate `int(1 / phi)` equals 1, which is not `2 ^ 0 / phi = 100000/77351`;
the corrected value claimed by the specification is never what the integer
interface returns. -/
theorem claim_C7_counterexample :
    corrected_cardinality (FlajoletMartinSimple.estimate_cardinality ⟨0⟩) = 1 ∧
    ((1 : ℚ) ≠ (2 : ℚ) ^ (0 : ℕ) / phi) := by
  constructor
  · unfold corrected_cardinality FlajoletMartinSimple.estimate_cardinality pyInt
    norm_num [phi, Rat.divInt_eq_div, Rat.floor_def]
  · norm_num [phi, Rat.divInt_eq_div]

/-- C8 amended: the returned estimate is the truncation of the mean of the
group medians, so it lies between the floor of the smallest group median and
the largest group median; the untruncated bound of the claim fails (see the
counterexample). -/
theorem claim_C8_median_bound (s : FlajoletMartinMultiple) (hphi : 0 < s.phi)
    (qmin qmax : ℚ)
    (hminmem : qmin ∈ FlajoletMartinMultiple.group_medians s)
    (hmaxmem : qmax ∈ FlajoletMartinMultiple.group_medians s)
    (hlo : ∀ q ∈ FlajoletMartinMultiple.group_medians s, qmin ≤ q)
    (hhi : ∀ q ∈ FlajoletMartinMultiple.group_medians s, q ≤ qmax) :
    ⌊qmin⌋ ≤ FlajoletMartinMultiple.estimate_cardinality s ∧
      ((FlajoletMartinMultiple.estimate_cardinality s : ℚ) ≤ qmax) := by
  have hne : FlajoletMartinMultiple.group_medians s ≠ [] :=
    List.ne_nil_of_mem hminmem
  have h0 : 0 ≤ qmin :=
    FlajoletMartinMultiple.group_medians_nonneg s hphi qmin hminmem
  have hmean_lo := le_listMean hne hlo
  have hmean_hi := listMean_le hne hhi
  unfold FlajoletMartinMultiple.estimate_cardinality
  rw [pyInt_of_nonneg (le_trans h0 hmean_lo)]
  exact ⟨Int.floor_le_floor hmean_lo,
    le_trans (Int.floor_le _) hmean_hi⟩

/-- Witness for C8 at a concrete 1-group, 1-hash state. -/
theorem claim_C8_witness :
    0 < (FlajoletMartinMultiple.init 1 1 [3]).phi ∧
    ((1 : ℚ) / phi) ∈
      FlajoletMartinMultiple.group_medians (FlajoletMartinMultiple.init 1 1 [3]) ∧
    (∀ q ∈ FlajoletMartinMultiple.group_medians
      (FlajoletMartinMultiple.init 1 1 [3]), (1 : ℚ) / phi ≤ q) ∧
    (∀ q ∈ FlajoletMartinMultiple.group_medians
      (FlajoletMartinMultiple.init 1 1 [3]), q ≤ (1 : ℚ) / phi) ∧
    (⌊(1 : ℚ) / phi⌋ ≤ FlajoletMartinMultiple.estimate_cardinality
        (FlajoletMartinMultiple.init 1 1 [3]) ∧
      ((FlajoletMartinMultiple.estimate_cardinality
        (FlajoletMartinMultiple.init 1 1 [3]) : ℚ) ≤ (1 : ℚ) / phi)) := by
  have hmem : ((1 : ℚ) / phi) ∈
      FlajoletMartinMultiple.group_medians
        (FlajoletMartinMultiple.init 1 1 [3]) := by
    simp [FlajoletMartinMultiple.group_medians,
      FlajoletMartinMultiple.init, List.insertionSort, List.orderedInsert]
  have hall : ∀ q ∈ FlajoletMartinMultiple.group_medians
      (FlajoletMartinMultiple.init 1 1 [3]), q = (1 : ℚ) / phi := by
    intro q hq
    simpa [FlajoletMartinMultiple.group_medians,
      FlajoletMartinMultiple.init, List.insertionSort,
      List.orderedInsert] using hq
  refine ⟨by decide, hmem, fun q hq => (hall q hq).ge, fun q hq => (hall q hq).le,
    claim_C8_median_bound _ (by decide) _ _ hmem hmem
      (fun q hq => (hall q hq).ge) (fun q hq => (hall q hq).le)⟩

/-- C8 counterexample: with a single all-zero group the only group median is
`1 / phi = 100000/77351 ≈ 1.29`, but the returned estimate is its truncation
1, which is strictly below the minimum of the group medians — the claimed
untruncated lower bound fails. -/
theorem claim_C8_counterexample :
    FlajoletMartinMultiple.group_medians (FlajoletMartinMultiple.init 1 1 [0]) =
      [(100000 : ℚ) / 77351] ∧
    FlajoletMartinMultiple.estimate_cardinality
      (FlajoletMartinMultiple.init 1 1 [0]) = 1 ∧
    ¬ ((100000 : ℚ) / 77351 ≤
        ((FlajoletMartinMultiple.estimate_cardinality
          (FlajoletMartinMultiple.init 1 1 [0]) : ℤ) : ℚ)) := by
  have hest : FlajoletMartinMultiple.estimate_cardinality
      (FlajoletMartinMultiple.init 1 1 [0]) = 1 := by
    rw [show FlajoletMartinMultiple.init 1 1 [0] =
      (⟨1, 1, 1, [[0]], [0], phi⟩ : FlajoletMartinMultiple) from rfl,
      FlajoletMartinMultiple.estimate_single]
    unfold pyInt
    norm_num [phi, Rat.divInt_eq_div, Rat.floor_def]
  refine ⟨?_, hest, ?_⟩
  · simp [FlajoletMartinMultiple.group_medians,
      FlajoletMartinMultiple.init, List.insertionSort, List.orderedInsert,
      phi, Rat.divInt_eq_div]
  · rw [hest]
    norm_num

/-- C9 amended: when the two hash oracles agree on every element (grouped
seed included), an FmGrouped(1, 1) and an FmSimple fed the same stream hold
the same maximum tail length `m`, but their estimates differ in general:
FmSimple returns the raw `2 ^ m` while FmGrouped(1, 1) returns the corrected
truncation `int(2 ^ m / phi)` (4 versus 5 at `m = 2`). -/
theorem claim_C9_degenerate_grouping {α : Type} (hfS : α → ℕ)
    (hfM : α → ℕ → ℕ) (seed : ℕ) (hag : ∀ v, hfM v seed = hfS v)
    (l : List α) :
    FlajoletMartinMultiple.cell
        (FlajoletMartinMultiple.processList hfM l
          (FlajoletMartinMultiple.init 1 1 [seed])) 0 0 =
      (FlajoletMartinSimple.processList hfS l
        FlajoletMartinSimple.init).max_tail_length ∧
    FlajoletMartinMultiple.estimate_cardinality
        (FlajoletMartinMultiple.processList hfM l
          (FlajoletMartinMultiple.init 1 1 [seed])) =
      pyInt ((2 : ℚ) ^ (FlajoletMartinSimple.processList hfS l
          FlajoletMartinSimple.init).max_tail_length / phi) ∧
    FlajoletMartinSimple.estimate_cardinality
        (FlajoletMartinSimple.processList hfS l FlajoletMartinSimple.init) =
      2 ^ (FlajoletMartinSimple.processList hfS l
          FlajoletMartinSimple.init).max_tail_length := by
  have hfun : (fun (t : ℕ) (v : α) => max t (tail_length (hfM v seed))) =
      (fun (t : ℕ) (v : α) => max t (tail_length (hfS v))) := by
    funext t v
    rw [hag v]
  rw [show FlajoletMartinMultiple.init 1 1 [seed] =
        (⟨1, 1, 1, [[0]], [seed], phi⟩ : FlajoletMartinMultiple) from rfl,
    show FlajoletMartinSimple.init = (⟨0⟩ : FlajoletMartinSimple) from rfl,
    FlajoletMartinMultiple.processList_one_one, hfun,
    FlajoletMartinSimple.processList_foldl,
    FlajoletMartinMultiple.estimate_single]
  exact ⟨rfl, rfl, rfl⟩

/-- Witness for C9 with a stub oracle whose hash is always 4. -/
theorem claim_C9_witness :
    FlajoletMartinMultiple.cell
        (FlajoletMartinMultiple.processList (fun (_ _ : ℕ) => 4) [0]
          (FlajoletMartinMultiple.init 1 1 [7])) 0 0 =
      (FlajoletMartinSimple.processList (fun _ : ℕ => 4) [0]
        FlajoletMartinSimple.init).max_tail_length ∧
    FlajoletMartinMultiple.estimate_cardinality
        (FlajoletMartinMultiple.processList (fun (_ _ : ℕ) => 4) [0]
          (FlajoletMartinMultiple.init 1 1 [7])) =
      pyInt ((2 : ℚ) ^ (FlajoletMartinSimple.processList (fun _ : ℕ => 4) [0]
          FlajoletMartinSimple.init).max_tail_length / phi) ∧
    FlajoletMartinSimple.estimate_cardinality
        (FlajoletMartinSimple.processList (fun _ : ℕ => 4) [0]
          FlajoletMartinSimple.init) =
      2 ^ (FlajoletMartinSimple.processList (fun _ : ℕ => 4) [0]
          FlajoletMartinSimple.init).max_tail_length :=
  claim_C9_degenerate_grouping (fun _ : ℕ => 4) (fun _ _ => 4) 7
    (fun _ => rfl) [0]

/-- C9 counterexample: after processing one element whose hash is 4 under
both sketches (so both hold maximum tail length 2), FmSimple's estimate is
`2 ^ 2 = 4` while FmGrouped(1, 1)'s estimate is `int(4 / phi) = 5`; the two
sketches do not return the same value. -/
theorem claim_C9_counterexample :
    FlajoletMartinSimple.estimate_cardinality
        (FlajoletMartinSimple.processList (fun _ : ℕ => 4) [0]
          FlajoletMartinSimple.init) = 4 ∧
    FlajoletMartinMultiple.estimate_cardinality
        (FlajoletMartinMultiple.processList (fun (_ _ : ℕ) => 4) [0]
          (FlajoletMartinMultiple.init 1 1 [7])) = 5 ∧
    (4 : ℤ) ≠ 5 := by
  refine ⟨by decide, ?_, by decide⟩
  have hstate : FlajoletMartinMultiple.processList (fun (_ _ : ℕ) => 4) [0]
      (FlajoletMartinMultiple.init 1 1 [7]) =
      (⟨1, 1, 1, [[2]], [7], phi⟩ : FlajoletMartinMultiple) := by decide
  rw [hstate, FlajoletMartinMultiple.estimate_single]
  unfold pyInt
  norm_num [phi, Rat.divInt_eq_div, Rat.floor_def]

/-- C10: with a positive bitmap size, `_hashes` produces exactly
`hash_count` indices and each lies in `[0, size)` — Python's `%` with a
positive modulus is non-negative even for the signed 64-bit values
`mmh3.hash64` returns — so `add` and `query` never index the bit array out
of range. -/
theorem claim_C10_hashes_in_range {α : Type} (hf : α → ℕ → ℤ)
    (s : BloomFilter) (hpos : 0 < s.size) (v : α) :
    (BloomFilter.hashesOf hf v s).length = s.hash_count ∧
    ∀ idx ∈ BloomFilter.hashesOf hf v s, idx < s.size :=
  ⟨BloomFilter.hashesOf_length hf v s,
   BloomFilter.hashesOf_lt_size hf v s hpos⟩

/-- Witness for C10 with an oracle producing negative hash values. -/
theorem claim_C10_witness :
    0 < (BloomFilter.init 5 3).size ∧
    ((BloomFilter.hashesOf (fun (v i : ℕ) => (v : ℤ) - 7 * (i : ℤ)) 2
        (BloomFilter.init 5 3)).length = (BloomFilter.init 5 3).hash_count ∧
      ∀ idx ∈ BloomFilter.hashesOf (fun (v i : ℕ) => (v : ℤ) - 7 * (i : ℤ)) 2
        (BloomFilter.init 5 3), idx < (BloomFilter.init 5 3).size) :=
  ⟨by decide,
    claim_C10_hashes_in_range (fun (v i : ℕ) => (v : ℤ) - 7 * (i : ℤ))
      (BloomFilter.init 5 3) (by decide) 2⟩

end StreamAnalysis
